import Mathlib

/-! r53elb: Route 53 name to ELB lookup.

A shallow embedding of `main.go` of `jboelter/r53elb`: the suffix matcher
`find`, the construction of the zone directory, the alias classifier and the
load-balancer correlator of `main`, together with the properties that the
specification states about them.

Go strings are modelled as lists of characters.  Every string operation the
program uses (`==`, `strings.Split` and `strings.Join` on `"."`,
`strings.HasSuffix`, `strings.TrimPrefix`) compares whole characters only, and
the one character it looks for, `'.'`, is a single byte.
-/

namespace R53elb

/-! Strings -/

/-- A Go `string`. -/
abbrev GoString := List Char

/-- Go `aws.StringValue`: the string a pointer points to, `""` for `nil`. -/
def StringValue : Option GoString → GoString
  | some s => s
  | none => []

/-- Go `strings.Split(s, sep)` for a one-character separator: the pieces of `s`
between the occurrences of `sep`; one more piece than there are separators, so
never an empty slice. -/
def Split : GoString → Char → List GoString
  | [], _ => [[]]
  | c :: cs, sep =>
    if c = sep then [] :: Split cs sep
    else
      match Split cs sep with
      | [] => [[c]]
      | l :: ls => (c :: l) :: ls

/-- Go `strings.Join(elems, sep)`. -/
def Join : List GoString → GoString → GoString
  | [], _ => []
  | [a], _ => a
  | a :: b :: rest, sep => a ++ sep ++ Join (b :: rest) sep

/-- Go `strings.HasSuffix(s, suffix)`. -/
def HasSuffix (s suffix : GoString) : Bool :=
  suffix.isSuffixOf s

/-- Go `strings.HasPrefix(s, pre)`. -/
def HasPrefix (s pre : GoString) : Bool :=
  pre.isPrefixOf s

/-- Go `strings.TrimPrefix(s, pre)`: `s` without the leading `pre`, or `s`
itself when it does not start with `pre`. -/
def TrimPrefix (s pre : GoString) : GoString :=
  if HasPrefix s pre then s.drop pre.length else s

/-! Maps -/

/-- A Go `map[string]V`, as an association list with at most one live entry
per key (the first one). -/
abbrev GoMap (V : Type) := List (GoString × V)

namespace GoMap

/-- The comma-ok read `v, ok := m[k]`: `some v` when `k` is a key. -/
def get {V : Type} : GoMap V → GoString → Option V
  | [], _ => none
  | (k, v) :: rest, key => if k = key then some v else get rest key

/-- The write `m[k] = v`: replaces the entry of `k` when there is one, adds
one otherwise. -/
def set {V : Type} : GoMap V → GoString → V → GoMap V
  | [], key, val => [(key, val)]
  | (k, v) :: rest, key, val =>
    if k = key then (k, val) :: rest else (k, v) :: set rest key val

end GoMap

/-! The suffix matcher -/

/-- The loop of `find`, `for i := 0; i < len(labels); i++`, entered at index `i`
with `n` iterations left: the first `i` from there on whose label suffix
`labels[i:]`, joined by `"."`, is a key of `zones` decides the result; when the
iterations are used up the function returns `"", "", ""`. -/
def findLoop (labels : List GoString) (zones : GoMap GoString) :
    Nat → Nat → GoString × GoString × GoString
  | 0, _ => ([], [], [])
  | n + 1, i =>
    match zones.get (Join (labels.drop i) ['.']) with
    | some zoneID => (zoneID, Join (labels.take i) ['.'], Join (labels.drop i) ['.'])
    | none => findLoop labels zones n (i + 1)

/-- Go `find(fqdn, zones)`, returning `(zoneID, prefix, domain)`. -/
def find (fqdn : GoString) (zones : GoMap GoString) : GoString × GoString × GoString :=
  let labels := Split fqdn '.'
  findLoop labels zones labels.length 0

/-! The zone directory -/

/-- A `route53.HostedZone`, with the two fields the program reads. -/
structure HostedZone where
  Name : Option GoString
  Id : Option GoString

/-- The body of the `ListHostedZonesPages` callback on one page: every zone is
entered under its name unless that name is already a key, in which case
`log.Fatal` ends the process (`none`). -/
def hostedZonesPage : GoMap GoString → List HostedZone → Option (GoMap GoString)
  | zones, [] => some zones
  | zones, z :: rest =>
    let name := StringValue z.Name
    let id := TrimPrefix (StringValue z.Id) "/hostedzone/".toList
    match zones.get name with
    | some _ => none
    | none => hostedZonesPage (zones.set name id) rest

/-- The call `r53.ListHostedZonesPages` with the callback of `main`, on the pages
of a listing that the service delivers without error.  The callback always
returns `true`, so every page is visited. -/
def ListHostedZonesPages : GoMap GoString → List (List HostedZone) → Option (GoMap GoString)
  | zones, [] => some zones
  | zones, page :: pages =>
    match hostedZonesPage zones page with
    | none => none
    | some zones1 => ListHostedZonesPages zones1 pages

/-- The zone directory of `main`: `zones := make(map[string]string)` filled by
`ListHostedZonesPages`; `none` when the process was ended by `log.Fatal`. -/
def buildZones (pages : List (List HostedZone)) : Option (GoMap GoString) :=
  ListHostedZonesPages [] pages

/-- The first stage of `main`: the zone directory is built and handed to `find`;
`none` when the process ended before `find` was reached. -/
def lookupZone (fqdn : GoString) (pages : List (List HostedZone)) :
    Option (GoString × GoString × GoString) :=
  match buildZones pages with
  | none => none
  | some zones => some (find fqdn zones)

/-! The alias classifier -/

/-- A `route53.AliasTarget`, with the field the program reads. -/
structure AliasTarget where
  DNSName : Option GoString

/-- A `route53.ResourceRecordSet`, with the fields the program reads. -/
structure ResourceRecordSet where
  Name : Option GoString
  AliasTarget : Option AliasTarget

/-- The body of the `ListResourceRecordSetsPages` callback on one page: the
record sets named exactly `fqdn` are appended to `recordSets`. -/
def recordSetsPage (fqdn : GoString) :
    List ResourceRecordSet → List ResourceRecordSet → List ResourceRecordSet
  | recordSets, [] => recordSets
  | recordSets, r :: rest =>
    if StringValue r.Name = fqdn then recordSetsPage fqdn (recordSets ++ [r]) rest
    else recordSetsPage fqdn recordSets rest

/-- The call `r53.ListResourceRecordSetsPages` with the callback of `main`. -/
def ListResourceRecordSetsPages (fqdn : GoString) :
    List ResourceRecordSet → List (List ResourceRecordSet) → List ResourceRecordSet
  | recordSets, [] => recordSets
  | recordSets, page :: pages =>
    ListResourceRecordSetsPages fqdn (recordSetsPage fqdn recordSets page) pages

/-- A Go slice index expression `l[i]` with a signed index: `none` is the
run-time panic "index out of range". -/
def index {α : Type} (l : List α) (i : Int) : Option α :=
  if i < 0 then none else l.get? i.toNat

/-- The region of an alias target: `l := strings.Split(dns, ".")`,
`region := l[len(l)-5]`. -/
def region (dns : GoString) : Option GoString :=
  let l := Split dns '.'
  index l ((l.length : Int) - 5)

/-- The suffix that the classifier requires of an alias target. -/
def elbSuffix : GoString := "elb.amazonaws.com.".toList

/-- The loop `for _, r := range recordSets` of `main` that fills `aliases`;
`none` is the panic of the index expression `l[len(l)-5]`. -/
def classifyLoop : GoMap (List GoString) → List ResourceRecordSet →
    Option (GoMap (List GoString))
  | aliases, [] => some aliases
  | aliases, r :: rest =>
    match r.AliasTarget with
    | some ⟨some dns⟩ =>
      if !HasSuffix dns elbSuffix then classifyLoop aliases rest
      else
        match region dns with
        | none => none
        | some rg =>
          classifyLoop (aliases.set rg ((aliases.get rg).getD [] ++ [dns])) rest
    | _ => classifyLoop aliases rest

/-- The alias group that `main` builds for `fqdn` from the pages of the record-set
listing of the zone.  When no record set is named `fqdn`, `main` returns before
`aliases` is made; that outcome is the group without keys.  `none` is the panic
of the region extraction. -/
def aliasGroup (fqdn : GoString) (pages : List (List ResourceRecordSet)) :
    Option (GoMap (List GoString)) :=
  let recordSets := ListResourceRecordSetsPages fqdn [] pages
  if recordSets.length = 0 then some []
  else classifyLoop [] recordSets

/-! The load-balancer correlator -/

/-- An `elb.Instance`. -/
structure Instance where
  InstanceId : Option GoString

/-- An `elb.InstanceState`, with the fields the program prints. -/
structure InstanceState where
  InstanceId : Option GoString
  State : Option GoString

/-- An `elb.LoadBalancerDescription`, with the fields the program reads. -/
structure LoadBalancerDescription where
  LoadBalancerName : Option GoString
  DNSName : Option GoString
  CanonicalHostedZoneName : Option GoString
  CanonicalHostedZoneNameID : Option GoString
  Instances : List Instance

/-- What the correlator prints: the block of a match, and one line per instance
state of the matched load balancer. -/
inductive Line where
  | matchRecord (fqdn aliasName elbName dns zoneName zoneID : GoString)
  | instanceState (id state : GoString)
  deriving DecidableEq

/-- The block printed for a load balancer and an alias target that match. -/
def matchLine (fqdn : GoString) (lb : LoadBalancerDescription) (target : GoString) : Line :=
  Line.matchRecord fqdn target (StringValue lb.LoadBalancerName) (StringValue lb.DNSName)
    (StringValue lb.CanonicalHostedZoneName) (StringValue lb.CanonicalHostedZoneNameID)

/-- The service call `DescribeInstanceHealth(Instances, LoadBalancerName)`: its
result is the list of instance states, or `none` for an error. -/
abbrev HealthService := List Instance → Option GoString → Option (List InstanceState)

/-- The loop `for _, alias := range aliasTargets` for one load balancer.  The
result is what was printed and whether the process is still running: an error
of the health call ends it by `log.Fatal`, after the block of the match was
printed. -/
def aliasLoop (health : HealthService) (fqdn : GoString) (lb : LoadBalancerDescription)
    (dnsName : GoString) : List GoString → List Line × Bool
  | [] => ([], true)
  | target :: rest =>
    if HasSuffix target dnsName then
      match health lb.Instances lb.LoadBalancerName with
      | none => ([matchLine fqdn lb target], false)
      | some states =>
        let r := aliasLoop health fqdn lb dnsName rest
        (matchLine fqdn lb target ::
          (states.map fun i => Line.instanceState (StringValue i.InstanceId) (StringValue i.State))
            ++ r.1, r.2)
    else aliasLoop health fqdn lb dnsName rest

/-- The body of the `DescribeLoadBalancersPages` callback on one page:
`dnsName := aws.StringValue(lb.DNSName) + "."` and the alias loop, for every
load balancer of the page. -/
def loadBalancersPage (health : HealthService) (fqdn : GoString)
    (aliasTargets : List GoString) : List LoadBalancerDescription → List Line × Bool
  | [] => ([], true)
  | lb :: rest =>
    let dnsName := StringValue lb.DNSName ++ ['.']
    let r := aliasLoop health fqdn lb dnsName aliasTargets
    if r.2 then
      let r1 := loadBalancersPage health fqdn aliasTargets rest
      (r.1 ++ r1.1, r1.2)
    else r

/-- The call `elbSvc.DescribeLoadBalancersPages` with the callback of `main`, for
the alias targets of one region and the pages of that region's listing. -/
def DescribeLoadBalancersPages (health : HealthService) (fqdn : GoString)
    (aliasTargets : List GoString) : List (List LoadBalancerDescription) → List Line × Bool
  | [] => ([], true)
  | page :: pages =>
    let r := loadBalancersPage health fqdn aliasTargets page
    if r.2 then
      let r1 := DescribeLoadBalancersPages health fqdn aliasTargets pages
      (r.1 ++ r1.1, r1.2)
    else r

/-- The match records among the printed lines, in the order printed. -/
def matchRecords (out : List Line) : List Line :=
  out.filter fun l =>
    match l with
    | Line.matchRecord .. => true
    | Line.instanceState .. => false

/-! Vocabulary of the specification -/

/-- The name `d` is a suffix of `fqdn` that starts at a label boundary: all of
`fqdn`, or what follows one of its dots. -/
def LabelSuffix (d fqdn : GoString) : Prop :=
  d = fqdn ∨ ('.' :: d) <:+ fqdn

instance LabelSuffix.decidable (d fqdn : GoString) : Decidable (LabelSuffix d fqdn) := by
  unfold LabelSuffix
  exact inferInstance

/-- The name under which a listed zone is entered in the zone directory. -/
def zoneName (z : HostedZone) : GoString :=
  StringValue z.Name

/-- The id under which a listed zone is entered in the zone directory. -/
def zoneId (z : HostedZone) : GoString :=
  TrimPrefix (StringValue z.Id) "/hostedzone/".toList

/-- The alias target DNS name that a record set carries, when it carries one:
`r.AliasTarget != nil && r.AliasTarget.DNSName != nil`. -/
def aliasDNSName (r : ResourceRecordSet) : Option GoString :=
  match r.AliasTarget with
  | some ⟨some dns⟩ => some dns
  | _ => none

/-- The alias target DNS name of a record set, when it carries one that ends
with `elb.amazonaws.com.` and whose fifth label from the end is `rg`. -/
def elbTarget (rg : GoString) (r : ResourceRecordSet) : Option GoString :=
  match aliasDNSName r with
  | some dns =>
    if elbSuffix <:+ dns ∧ (Split dns '.').reverse.get? 4 = some rg then some dns else none
  | none => none

/-- The targets that the specification files under the region `rg`: in listing
order, the alias target DNS names of the record sets named exactly `fqdn` that
carry one ending with `elb.amazonaws.com.` whose fifth label from the end is
`rg`. -/
def matchingTargets (fqdn rg : GoString) (listing : List ResourceRecordSet) : List GoString :=
  (listing.filter fun r => StringValue r.Name = fqdn).filterMap (elbTarget rg)

/-- A record set that the classifier has no use for: its name differs from
`fqdn`, or it carries no alias target DNS name, or one that does not end with
`elb.amazonaws.com.`. -/
def NonMatching (fqdn : GoString) (r : ResourceRecordSet) : Prop :=
  StringValue r.Name ≠ fqdn ∨ ∀ dns, aliasDNSName r = some dns → ¬ elbSuffix <:+ dns

/-- The listing on the right is the one on the left with record sets that are
`NonMatching` inserted, any number of them at any positions. -/
inductive InsertedNonMatching (fqdn : GoString) :
    List ResourceRecordSet → List ResourceRecordSet → Prop where
  | nil : InsertedNonMatching fqdn [] []
  | keep (r : ResourceRecordSet) {l l1 : List ResourceRecordSet} :
      InsertedNonMatching fqdn l l1 → InsertedNonMatching fqdn (r :: l) (r :: l1)
  | insert (r : ResourceRecordSet) {l l1 : List ResourceRecordSet} :
      NonMatching fqdn r → InsertedNonMatching fqdn l l1 → InsertedNonMatching fqdn l (r :: l1)

/-- The pairs that the specification correlates: a load balancer of the listing
and an alias target of the region such that the DNS name of the load balancer,
with a dot appended, is a suffix of the alias target.  The pairs come in the
order of the listing and, for one load balancer, in the order of the targets. -/
def matchingPairs (lbs : List LoadBalancerDescription) (aliasTargets : List GoString) :
    List (LoadBalancerDescription × GoString) :=
  (List.product lbs aliasTargets).filter fun p => (StringValue p.1.DNSName ++ ['.']) <:+ p.2

/-- The match records of the pairs of `matchingPairs`, one per pair. -/
def expectedRecords (fqdn : GoString) (aliasTargets : List GoString)
    (lbs : List LoadBalancerDescription) : List Line :=
  (matchingPairs lbs aliasTargets).map fun p => matchLine fqdn p.1 p.2

/-! Lemmas on strings -/

theorem Split_ne_nil (s : GoString) (c : Char) : Split s c ≠ [] := by
  induction s with
  | nil => simp [Split]
  | cons a s ih =>
    simp only [Split]
    split
    · simp
    · split <;> simp

theorem Split_cons_sep (s : GoString) (c : Char) : Split (c :: s) c = [] :: Split s c := by
  simp [Split]

theorem Split_cons_ne (a : Char) (s : GoString) (c : Char) (h : a ≠ c) :
    Split (a :: s) c = (a :: (Split s c).headD []) :: (Split s c).tail := by
  simp only [Split, if_neg h]
  cases hs : Split s c with
  | nil => exact absurd hs (Split_ne_nil s c)
  | cons l ls => simp

theorem Join_cons (a : GoString) (ls : List GoString) (sep : GoString) (h : ls ≠ []) :
    Join (a :: ls) sep = a ++ sep ++ Join ls sep := by
  cases ls with
  | nil => exact absurd rfl h
  | cons b rest => simp [Join]

/-- Joining the pieces of a split gives the string back. -/
theorem Join_Split (s : GoString) (c : Char) : Join (Split s c) [c] = s := by
  induction s with
  | nil => simp [Split, Join]
  | cons a s ih =>
    by_cases h : a = c
    · subst h
      rw [Split_cons_sep, Join_cons _ _ _ (Split_ne_nil s a), ih]
      simp
    · rw [Split_cons_ne a s c h]
      cases hs : Split s c with
      | nil => exact absurd hs (Split_ne_nil s c)
      | cons l ls =>
        rw [hs] at ih
        cases ls with
        | nil =>
          simp only [Join] at ih
          simp [Join, ih]
        | cons m ms =>
          simp only [Join] at ih
          simp [Join, ← ih]

/-- Splitting at a separator splits the pieces. -/
theorem Split_append (p d : GoString) (c : Char) :
    Split (p ++ c :: d) c = Split p c ++ Split d c := by
  induction p with
  | nil => simp [Split]
  | cons a p ih =>
    by_cases h : a = c
    · subst h
      simp [Split_cons_sep, ih]
    · rw [List.cons_append, Split_cons_ne a _ c h, Split_cons_ne a p c h, ih]
      cases hs : Split p c with
      | nil => exact absurd hs (Split_ne_nil p c)
      | cons l ls => simp

/-- A string without the separator is one piece. -/
theorem Split_of_not_mem (a : GoString) (c : Char) (h : c ∉ a) : Split a c = [a] := by
  induction a with
  | nil => simp [Split]
  | cons x a ih =>
    have hx : x ≠ c := fun e => h (by simp [e])
    have ha : c ∉ a := fun e => h (by simp [e])
    rw [Split_cons_ne x a c hx, ih ha]
    simp

/-- The pieces of `a ++ sep ++ rest` when `a` has no separator. -/
theorem Split_label (a rest : GoString) (c : Char) (h : c ∉ a) :
    Split (a ++ c :: rest) c = a :: Split rest c := by
  rw [Split_append, Split_of_not_mem a c h]
  simp

theorem Join_take_drop (ls : List GoString) (sep : GoString) (i : Nat)
    (h0 : 0 < i) (h1 : i < ls.length) :
    Join ls sep = Join (ls.take i) sep ++ sep ++ Join (ls.drop i) sep := by
  induction ls generalizing i with
  | nil => simp at h1
  | cons a ls ih =>
    obtain ⟨k, rfl⟩ : ∃ k, i = k + 1 := ⟨i - 1, by omega⟩
    simp only [List.length_cons] at h1
    have hls : ls ≠ [] := by
      intro e
      simp [e] at h1
    rw [Join_cons a ls sep hls, List.take_succ_cons, List.drop_succ_cons]
    cases k with
    | zero => simp [Join]
    | succ k =>
      have hk : k + 1 < ls.length := by omega
      have htake : ls.take (k + 1) ≠ [] := by
        intro e
        have := congrArg List.length e
        rw [List.length_take, List.length_nil] at this
        omega
      rw [Join_cons a _ sep htake, ih (k + 1) (by omega) hk]
      simp [List.append_assoc]

theorem Join_drop_succ_suffix (ls : List GoString) (sep : GoString) (i : Nat) :
    Join (ls.drop (i + 1)) sep <:+ Join (ls.drop i) sep := by
  by_cases h : i < ls.length
  · rw [List.drop_eq_getElem_cons h]
    by_cases h2 : ls.drop (i + 1) = []
    · rw [h2]
      simp [Join]
    · rw [Join_cons _ _ _ h2]
      exact ⟨ls[i] ++ sep, rfl⟩
  · rw [List.drop_eq_nil_of_le (by omega), List.drop_eq_nil_of_le (by omega)]

theorem Join_drop_suffix (ls : List GoString) (sep : GoString) (i j : Nat) (h : i ≤ j) :
    Join (ls.drop j) sep <:+ Join (ls.drop i) sep := by
  induction j with
  | zero =>
    have : i = 0 := by omega
    subst this
    exact List.suffix_refl _
  | succ j ih =>
    by_cases hij : i = j + 1
    · subst hij
      exact List.suffix_refl _
    · exact (Join_drop_succ_suffix ls sep j).trans (ih (by omega))

/-! Lemmas on the suffix matcher -/

/-- The loop of `find` returns at the first index whose label suffix is a key,
and returns the empty results when there is none. -/
theorem findLoop_spec (labels : List GoString) (zones : GoMap GoString) (n i : Nat) :
    (∃ k z, k < n ∧ (∀ j, j < k → zones.get (Join (labels.drop (i + j)) ['.']) = none) ∧
        zones.get (Join (labels.drop (i + k)) ['.']) = some z ∧
        findLoop labels zones n i =
          (z, Join (labels.take (i + k)) ['.'], Join (labels.drop (i + k)) ['.'])) ∨
    ((∀ j, j < n → zones.get (Join (labels.drop (i + j)) ['.']) = none) ∧
        findLoop labels zones n i = ([], [], [])) := by
  induction n generalizing i with
  | zero => exact Or.inr ⟨fun j hj => absurd hj (Nat.not_lt_zero j), rfl⟩
  | succ n ih =>
    cases hz : zones.get (Join (labels.drop i) ['.']) with
    | some z =>
      refine Or.inl ⟨0, z, Nat.succ_pos n, fun j hj => absurd hj (Nat.not_lt_zero j), ?_, ?_⟩
      · simpa using hz
      · simp [findLoop, hz]
    | none =>
      have hstep : findLoop labels zones (n + 1) i = findLoop labels zones n (i + 1) := by
        simp [findLoop, hz]
      rcases ih (i + 1) with ⟨k, z, hk, hnone, hsome, hres⟩ | ⟨hnone, hres⟩
      · refine Or.inl ⟨k + 1, z, by omega, ?_, ?_, ?_⟩
        · intro j hj
          cases j with
          | zero => simpa using hz
          | succ j =>
            have := hnone j (by omega)
            rwa [show i + 1 + j = i + (j + 1) by omega] at this
        · rwa [show i + 1 + k = i + (k + 1) by omega] at hsome
        · rw [hstep, hres, show i + 1 + k = i + (k + 1) by omega]
      · refine Or.inr ⟨?_, by rw [hstep, hres]⟩
        intro j hj
        cases j with
        | zero => simpa using hz
        | succ j =>
          have := hnone j (by omega)
          rwa [show i + 1 + j = i + (j + 1) by omega] at this

/-- The two outcomes of `find`, by the least matching index. -/
theorem find_spec (fqdn : GoString) (zones : GoMap GoString) :
    (∃ k z, k < (Split fqdn '.').length ∧
        (∀ j, j < k → zones.get (Join ((Split fqdn '.').drop j) ['.']) = none) ∧
        zones.get (Join ((Split fqdn '.').drop k) ['.']) = some z ∧
        find fqdn zones =
          (z, Join ((Split fqdn '.').take k) ['.'], Join ((Split fqdn '.').drop k) ['.'])) ∨
    ((∀ j, j < (Split fqdn '.').length →
        zones.get (Join ((Split fqdn '.').drop j) ['.']) = none) ∧
        find fqdn zones = ([], [], [])) := by
  have h := findLoop_spec (Split fqdn '.') zones (Split fqdn '.').length 0
  simpa [find] using h

/-- The label suffixes of a name are the joins of the tails of its labels. -/
theorem labelSuffix_iff (d fqdn : GoString) :
    LabelSuffix d fqdn ↔
      ∃ i, i < (Split fqdn '.').length ∧ d = Join ((Split fqdn '.').drop i) ['.'] := by
  constructor
  · rintro (rfl | ⟨p, hp⟩)
    · refine ⟨0, ?_, ?_⟩
      · exact List.length_pos.mpr (Split_ne_nil _ _)
      · simp [Join_Split]
    · refine ⟨(Split p '.').length, ?_, ?_⟩
      · rw [← hp, Split_append, List.length_append]
        have := List.length_pos.mpr (Split_ne_nil d '.')
        omega
      · rw [← hp, Split_append, List.drop_left, Join_Split]
  · rintro ⟨i, hi, rfl⟩
    cases i with
    | zero =>
      left
      simp [Join_Split]
    | succ i =>
      right
      refine ⟨Join ((Split fqdn '.').take (i + 1)) ['.'], ?_⟩
      have := Join_take_drop (Split fqdn '.') ['.'] (i + 1) (by omega) hi
      rw [Join_Split] at this
      simpa using this.symm

/-! Lemmas on maps and the zone directory -/

theorem GoMap.get_set {V : Type} (m : GoMap V) (k : GoString) (v : V) (key : GoString) :
    (m.set k v).get key = if k = key then some v else m.get key := by
  induction m with
  | nil => simp [GoMap.set, GoMap.get]
  | cons e rest ih =>
    obtain ⟨k1, v1⟩ := e
    by_cases h1 : k1 = k
    · subst h1
      by_cases h2 : k1 = key <;> simp [GoMap.set, GoMap.get, h2]
    · by_cases h2 : k1 = key
      · subst h2
        have h3 : ¬ k = k1 := fun e => h1 e.symm
        simp [GoMap.set, GoMap.get, h1, h3]
      · simp [GoMap.set, GoMap.get, h1, h2, ih]

/-- What a page of zones does to the zone directory when the process survives
it: no name of the page repeats or was a key before, every zone of the page is
found under its name with its own id, and the other keys are untouched. -/
theorem hostedZonesPage_some (zs : List HostedZone) (zones m : GoMap GoString)
    (h : hostedZonesPage zones zs = some m) :
    (zs.map zoneName).Nodup ∧ (∀ z ∈ zs, zones.get (zoneName z) = none) ∧
    (∀ z ∈ zs, m.get (zoneName z) = some (zoneId z)) ∧
    (∀ k, k ∉ zs.map zoneName → m.get k = zones.get k) := by
  induction zs generalizing zones with
  | nil =>
    simp only [hostedZonesPage, Option.some.injEq] at h
    subst h
    simp
  | cons z rest ih =>
    have hget : zones.get (zoneName z) = none := by
      cases hz : zones.get (zoneName z) with
      | none => rfl
      | some v =>
        simp only [hostedZonesPage] at h
        rw [show zones.get (StringValue z.Name) = some v from hz] at h
        simp at h
    have hrec : hostedZonesPage (zones.set (zoneName z) (zoneId z)) rest = some m := by
      simp only [hostedZonesPage] at h
      rw [show zones.get (StringValue z.Name) = none from hget] at h
      exact h
    obtain ⟨hnd, hfresh, hown, hother⟩ := ih _ hrec
    have hnotin : zoneName z ∉ rest.map zoneName := by
      intro hin
      obtain ⟨z1, hz1, he⟩ := List.mem_map.mp hin
      have := hfresh z1 hz1
      rw [GoMap.get_set, he] at this
      simp at this
    refine ⟨List.nodup_cons.mpr ⟨hnotin, hnd⟩, ?_, ?_, ?_⟩
    · intro z1 hz1
      rcases List.mem_cons.mp hz1 with rfl | hz1
      · exact hget
      · have := hfresh z1 hz1
        rw [GoMap.get_set] at this
        by_cases he : zoneName z = zoneName z1
        · simp [he] at this
        · simpa [he] using this
    · intro z1 hz1
      rcases List.mem_cons.mp hz1 with rfl | hz1
      · rw [hother _ hnotin, GoMap.get_set]
        simp
      · exact hown z1 hz1
    · intro k hk
      simp only [List.map_cons, List.mem_cons, not_or] at hk
      rw [hother k hk.2, GoMap.get_set]
      have : ¬ zoneName z = k := fun e => hk.1 e.symm
      simp [this]

/-- A page whose names do not repeat and are not keys yet is survived. -/
theorem hostedZonesPage_isSome (zs : List HostedZone) (zones : GoMap GoString)
    (hnd : (zs.map zoneName).Nodup) (hfresh : ∀ z ∈ zs, zones.get (zoneName z) = none) :
    (hostedZonesPage zones zs).isSome := by
  induction zs generalizing zones with
  | nil => simp [hostedZonesPage]
  | cons z rest ih =>
    have hget := hfresh z (List.mem_cons_self _ _)
    obtain ⟨hnotin, hnd1⟩ := List.nodup_cons.mp hnd
    simp only [hostedZonesPage]
    rw [show zones.get (StringValue z.Name) = none from hget]
    refine ih _ hnd1 ?_
    intro z1 hz1
    have hne : ¬ zoneName z = zoneName z1 := by
      intro e
      exact hnotin (e ▸ List.mem_map_of_mem zoneName hz1)
    have := GoMap.get_set zones (zoneName z) (zoneId z) (zoneName z1)
    simp only [hne, if_false] at this
    rw [show zones.set (StringValue z.Name) (TrimPrefix (StringValue z.Id) "/hostedzone/".toList)
      = zones.set (zoneName z) (zoneId z) from rfl, this]
    exact hfresh z1 (List.mem_cons_of_mem _ hz1)

theorem hostedZonesPage_append (a b : List HostedZone) (zones : GoMap GoString) :
    hostedZonesPage zones (a ++ b) =
      (hostedZonesPage zones a).bind fun zones1 => hostedZonesPage zones1 b := by
  induction a generalizing zones with
  | nil => simp [hostedZonesPage]
  | cons z rest ih =>
    simp only [List.cons_append, hostedZonesPage]
    cases zones.get (StringValue z.Name) with
    | none => exact ih _
    | some v => simp

/-- Paging does not matter: the pages are processed as one listing. -/
theorem ListHostedZonesPages_join (pages : List (List HostedZone)) (zones : GoMap GoString) :
    ListHostedZonesPages zones pages = hostedZonesPage zones pages.flatten := by
  induction pages generalizing zones with
  | nil => simp [ListHostedZonesPages, hostedZonesPage]
  | cons page pages ih =>
    rw [List.flatten_cons, hostedZonesPage_append]
    simp only [ListHostedZonesPages]
    cases hostedZonesPage zones page with
    | none => simp
    | some zones1 => simpa using ih zones1

/-! Lemmas on the alias classifier -/

theorem HasSuffix_iff (s suffix : GoString) : HasSuffix s suffix = true ↔ suffix <:+ s := by
  simp [HasSuffix]

/-- The index `len(l)-5` is the fifth position from the end, and is out of range
exactly when there are fewer than five elements. -/
theorem index_length_sub_five {α : Type} (l : List α) :
    index l ((l.length : Int) - 5) = l.reverse.get? 4 := by
  by_cases h : l.length < 5
  · have h1 : ((l.length : Int) - 5) < 0 := by omega
    have h2 : l.reverse.get? 4 = none := by
      rw [List.get?_eq_none, List.length_reverse]
      omega
    simp only [index, h1, if_true, h2]
  · have h1 : ¬ ((l.length : Int) - 5) < 0 := by omega
    have h3 : ((l.length : Int) - 5).toNat = l.length - 1 - 4 := by omega
    simp only [index, h1, if_false, h3, List.get?_eq_getElem?]
    rw [List.getElem?_reverse (by omega)]

theorem region_eq (dns : GoString) : region dns = (Split dns '.').reverse.get? 4 := by
  simp only [region]
  exact index_length_sub_five _

theorem region_isSome_iff (dns : GoString) :
    (region dns).isSome ↔ 5 ≤ (Split dns '.').length := by
  rw [region_eq, List.get?_eq_getElem?]
  constructor
  · intro h
    by_contra hlt
    rw [List.getElem?_eq_none (by simp; omega)] at h
    simp at h
  · intro h
    rw [List.getElem?_eq_getElem (by simp; omega)]
    simp

/-- One step of the classifier loop, by what the record set carries. -/
theorem classifyLoop_cons (aliases : GoMap (List GoString)) (r : ResourceRecordSet)
    (rest : List ResourceRecordSet) :
    classifyLoop aliases (r :: rest) =
      match aliasDNSName r with
      | none => classifyLoop aliases rest
      | some dns =>
        if HasSuffix dns elbSuffix then
          match region dns with
          | none => none
          | some rg =>
            classifyLoop (aliases.set rg ((aliases.get rg).getD [] ++ [dns])) rest
        else classifyLoop aliases rest := by
  obtain ⟨name, target⟩ := r
  cases target with
  | none => simp [classifyLoop, aliasDNSName]
  | some t =>
    obtain ⟨d⟩ := t
    cases d with
    | none => simp [classifyLoop, aliasDNSName]
    | some dns =>
      by_cases h : HasSuffix dns elbSuffix = true <;> simp [classifyLoop, aliasDNSName, h]

/-- A record set without an alias target ending in `elb.amazonaws.com.` leaves
the classifier loop where it was. -/
theorem classifyLoop_skip (aliases : GoMap (List GoString)) (r : ResourceRecordSet)
    (rest : List ResourceRecordSet)
    (h : ∀ dns, aliasDNSName r = some dns → ¬ elbSuffix <:+ dns) :
    classifyLoop aliases (r :: rest) = classifyLoop aliases rest := by
  rw [classifyLoop_cons]
  cases hd : aliasDNSName r with
  | none => rfl
  | some dns =>
    have : HasSuffix dns elbSuffix = false := by
      have := h dns hd
      rw [← HasSuffix_iff] at this
      simpa using this
    simp [this]

/-- The classifier loop, when every target it extracts a region from has five
labels: it ends with a map that holds, per region, what it held before followed
by the targets of that region. -/
theorem classifyLoop_spec (rs : List ResourceRecordSet) (aliases : GoMap (List GoString))
    (hdef : ∀ r ∈ rs, ∀ dns, aliasDNSName r = some dns → elbSuffix <:+ dns →
      5 ≤ (Split dns '.').length) :
    ∃ m, classifyLoop aliases rs = some m ∧
      ∀ rg, m.get rg =
        if rs.filterMap (elbTarget rg) = [] then aliases.get rg
        else some ((aliases.get rg).getD [] ++ rs.filterMap (elbTarget rg)) := by
  induction rs generalizing aliases with
  | nil => exact ⟨aliases, rfl, fun rg => by simp⟩
  | cons r rest ih =>
    have hrest : ∀ r1 ∈ rest, ∀ dns, aliasDNSName r1 = some dns → elbSuffix <:+ dns →
        5 ≤ (Split dns '.').length :=
      fun r1 h1 => hdef r1 (List.mem_cons_of_mem _ h1)
    cases hd : aliasDNSName r with
    | none =>
      obtain ⟨m, hm, hget⟩ := ih aliases hrest
      refine ⟨m, ?_, ?_⟩
      · rw [classifyLoop_skip _ _ _ (by simp [hd]), hm]
      · intro rg
        have : elbTarget rg r = none := by simp [elbTarget, hd]
        rw [List.filterMap_cons_none this]
        exact hget rg
    | some dns =>
      by_cases hs : elbSuffix <:+ dns
      · have hlen := hdef r (List.mem_cons_self _ _) dns hd hs
        obtain ⟨rg0, hrg0⟩ := Option.isSome_iff_exists.mp ((region_isSome_iff dns).mpr hlen)
        obtain ⟨m, hm, hget⟩ :=
          ih (aliases.set rg0 ((aliases.get rg0).getD [] ++ [dns])) hrest
        refine ⟨m, ?_, ?_⟩
        · rw [classifyLoop_cons, hd]
          simp only [(HasSuffix_iff _ _).mpr hs, if_true, hrg0]
          exact hm
        · intro rg
          rw [hget rg, GoMap.get_set]
          rw [region_eq] at hrg0
          by_cases he : rg0 = rg
          · subst he
            have : elbTarget rg0 r = some dns := by
              simp only [elbTarget, hd, hrg0]
              simp [hs]
            rw [List.filterMap_cons_some this]
            simp
          · have : elbTarget rg r = none := by
              simp only [elbTarget, hd, hrg0]
              simp [he]
            rw [List.filterMap_cons_none this]
            simp [he]
      · obtain ⟨m, hm, hget⟩ := ih aliases hrest
        refine ⟨m, ?_, ?_⟩
        · rw [classifyLoop_skip _ _ _ (fun d hd1 => by
            rw [hd] at hd1
            cases hd1
            exact hs), hm]
        · intro rg
          have : elbTarget rg r = none := by simp [elbTarget, hd, hs]
          rw [List.filterMap_cons_none this]
          exact hget rg

theorem recordSetsPage_eq (fqdn : GoString) (page recordSets : List ResourceRecordSet) :
    recordSetsPage fqdn recordSets page =
      recordSets ++ page.filter fun r => StringValue r.Name = fqdn := by
  induction page generalizing recordSets with
  | nil => simp [recordSetsPage]
  | cons r rest ih =>
    by_cases h : StringValue r.Name = fqdn
    · simp [recordSetsPage, h, ih]
    · simp [recordSetsPage, h, ih]

/-- Paging does not matter: `recordSets` is the listing filtered by name. -/
theorem ListResourceRecordSetsPages_eq (fqdn : GoString)
    (pages : List (List ResourceRecordSet)) (recordSets : List ResourceRecordSet) :
    ListResourceRecordSetsPages fqdn recordSets pages =
      recordSets ++ pages.flatten.filter fun r => StringValue r.Name = fqdn := by
  induction pages generalizing recordSets with
  | nil => simp [ListResourceRecordSetsPages]
  | cons page pages ih =>
    simp [ListResourceRecordSetsPages, ih, recordSetsPage_eq]

/-- The early return of `main` on an empty `recordSets` changes nothing about
the alias group: the classifier loop would leave the map without keys. -/
theorem aliasGroup_eq (fqdn : GoString) (pages : List (List ResourceRecordSet)) :
    aliasGroup fqdn pages =
      classifyLoop [] (pages.flatten.filter fun r => StringValue r.Name = fqdn) := by
  simp only [aliasGroup, ListResourceRecordSetsPages_eq, List.nil_append]
  split
  · next h =>
    rw [List.length_eq_zero.mp h]
    rfl
  · rfl

/-- Inserted record sets that do not match are invisible to the classifier
loop, whatever the map holds when it starts. -/
theorem classifyLoop_inserted (fqdn : GoString) (l l1 : List ResourceRecordSet)
    (h : InsertedNonMatching fqdn l l1) (aliases : GoMap (List GoString)) :
    classifyLoop aliases (l1.filter fun r => StringValue r.Name = fqdn) =
      classifyLoop aliases (l.filter fun r => StringValue r.Name = fqdn) := by
  induction h generalizing aliases with
  | nil => rfl
  | keep r _ ih =>
    by_cases hn : StringValue r.Name = fqdn
    · simp only [List.filter_cons, hn, decide_True, if_true]
      rw [classifyLoop_cons, classifyLoop_cons]
      cases aliasDNSName r with
      | none => exact ih aliases
      | some dns =>
        simp only
        split
        · cases region dns with
          | none => rfl
          | some rg => exact ih _
        · exact ih aliases
    · simp only [List.filter_cons, hn, decide_False]
      exact ih aliases
  | insert r hr _ ih =>
    by_cases hn : StringValue r.Name = fqdn
    · simp only [List.filter_cons, hn, decide_True, if_true]
      rcases hr with hr | hr
      · exact absurd hn hr
      · rw [classifyLoop_skip _ _ _ hr]
        exact ih aliases
    · simp only [List.filter_cons, hn, decide_False]
      exact ih aliases

/-! Lemmas on the correlator -/

theorem matchRecords_append (a b : List Line) :
    matchRecords (a ++ b) = matchRecords a ++ matchRecords b := by
  simp [matchRecords]

theorem matchRecords_cons_matchLine (fqdn : GoString) (lb : LoadBalancerDescription)
    (target : GoString) (out : List Line) :
    matchRecords (matchLine fqdn lb target :: out) =
      matchLine fqdn lb target :: matchRecords out := by
  simp [matchRecords, matchLine]

theorem matchRecords_instanceStates (states : List InstanceState) :
    matchRecords
      (states.map fun i => Line.instanceState (StringValue i.InstanceId) (StringValue i.State))
      = [] := by
  simp [matchRecords]

theorem expectedRecords_cons (fqdn : GoString) (aliasTargets : List GoString)
    (lb : LoadBalancerDescription) (rest : List LoadBalancerDescription) :
    expectedRecords fqdn aliasTargets (lb :: rest) =
      (aliasTargets.filter fun a => HasSuffix a (StringValue lb.DNSName ++ ['.'])).map
          (matchLine fqdn lb) ++
        expectedRecords fqdn aliasTargets rest := by
  have hprod : List.product (lb :: rest) aliasTargets =
      aliasTargets.map (Prod.mk lb) ++ List.product rest aliasTargets := by
    simp [List.product]
  simp only [expectedRecords, matchingPairs, hprod, List.filter_append,
    List.map_append, List.filter_map, List.map_map]
  congr 1
  simp only [HasSuffix]
  congr 1
  apply List.filter_congr
  intro a _
  rw [Bool.eq_iff_iff]
  simp

theorem expectedRecords_append (fqdn : GoString) (aliasTargets : List GoString)
    (a b : List LoadBalancerDescription) :
    expectedRecords fqdn aliasTargets (a ++ b) =
      expectedRecords fqdn aliasTargets a ++ expectedRecords fqdn aliasTargets b := by
  induction a with
  | nil => simp [expectedRecords, matchingPairs]
  | cons lb rest ih => simp [expectedRecords_cons, ih]

/-- The alias loop for one load balancer prints the match records of the
targets that end with `dnsName`, in order, up to the first health call that
fails; all of them when the process survives the loop. -/
theorem aliasLoop_spec (health : HealthService) (fqdn : GoString)
    (lb : LoadBalancerDescription) (dnsName : GoString) (aliasTargets : List GoString) :
    matchRecords (aliasLoop health fqdn lb dnsName aliasTargets).1 <+:
        (aliasTargets.filter fun a => HasSuffix a dnsName).map (matchLine fqdn lb) ∧
    ((aliasLoop health fqdn lb dnsName aliasTargets).2 = true →
      matchRecords (aliasLoop health fqdn lb dnsName aliasTargets).1 =
        (aliasTargets.filter fun a => HasSuffix a dnsName).map (matchLine fqdn lb)) ∧
    ((health lb.Instances lb.LoadBalancerName).isSome →
      (aliasLoop health fqdn lb dnsName aliasTargets).2 = true) := by
  induction aliasTargets with
  | nil => simp [aliasLoop, matchRecords]
  | cons a rest ih =>
    obtain ⟨ih1, ih2, ih3⟩ := ih
    by_cases hs : HasSuffix a dnsName = true
    · cases hh : health lb.Instances lb.LoadBalancerName with
      | none =>
        simp only [aliasLoop, hs, if_true, hh, List.filter_cons, List.map_cons]
        refine ⟨?_, ?_, ?_⟩
        · rw [matchRecords_cons_matchLine]
          simp [matchRecords]
        · simp
        · simp
      | some states =>
        simp only [aliasLoop, hs, if_true, hh, List.filter_cons, List.map_cons]
        rw [List.cons_append, matchRecords_cons_matchLine, matchRecords_append,
          matchRecords_instanceStates, List.nil_append]
        refine ⟨?_, ?_, ?_⟩
        · exact (List.prefix_cons_inj _).mpr ih1
        · intro h
          rw [ih2 h]
        · intro _
          exact ih3 (by simp [hh])
    · simp only [aliasLoop, hs, List.filter_cons]
      exact ⟨ih1, ih2, ih3⟩

/-- The correlator on one page. -/
theorem loadBalancersPage_spec (health : HealthService) (fqdn : GoString)
    (aliasTargets : List GoString) (lbs : List LoadBalancerDescription) :
    matchRecords (loadBalancersPage health fqdn aliasTargets lbs).1 <+:
        expectedRecords fqdn aliasTargets lbs ∧
    ((loadBalancersPage health fqdn aliasTargets lbs).2 = true →
      matchRecords (loadBalancersPage health fqdn aliasTargets lbs).1 =
        expectedRecords fqdn aliasTargets lbs) ∧
    ((∀ lb ∈ lbs, (health lb.Instances lb.LoadBalancerName).isSome) →
      (loadBalancersPage health fqdn aliasTargets lbs).2 = true) := by
  induction lbs with
  | nil => simp [loadBalancersPage, matchRecords, expectedRecords, matchingPairs]
  | cons lb rest ih =>
    obtain ⟨ih1, ih2, ih3⟩ := ih
    obtain ⟨h1, h2, h3⟩ :=
      aliasLoop_spec health fqdn lb (StringValue lb.DNSName ++ ['.']) aliasTargets
    rw [expectedRecords_cons]
    by_cases hok : (aliasLoop health fqdn lb (StringValue lb.DNSName ++ ['.']) aliasTargets).2
        = true
    · simp only [loadBalancersPage, hok, if_true]
      rw [matchRecords_append, h2 hok]
      refine ⟨(List.prefix_append_right_inj _).mpr ih1, ?_, ?_⟩
      · intro h
        rw [ih2 h]
      · intro hall
        exact ih3 fun lb1 h1 => hall lb1 (List.mem_cons_of_mem _ h1)
    · simp only [loadBalancersPage, hok]
      refine ⟨h1.trans (List.prefix_append _ _), ?_, ?_⟩
      · intro h
        exact absurd h hok
      · intro hall
        exact absurd (h3 (hall lb (List.mem_cons_self _ _))) hok

/-- The correlator on all pages of a region. -/
theorem DescribeLoadBalancersPages_spec (health : HealthService) (fqdn : GoString)
    (aliasTargets : List GoString) (pages : List (List LoadBalancerDescription)) :
    matchRecords (DescribeLoadBalancersPages health fqdn aliasTargets pages).1 <+:
        expectedRecords fqdn aliasTargets pages.flatten ∧
    ((DescribeLoadBalancersPages health fqdn aliasTargets pages).2 = true →
      matchRecords (DescribeLoadBalancersPages health fqdn aliasTargets pages).1 =
        expectedRecords fqdn aliasTargets pages.flatten) ∧
    ((∀ lb ∈ pages.flatten, (health lb.Instances lb.LoadBalancerName).isSome) →
      (DescribeLoadBalancersPages health fqdn aliasTargets pages).2 = true) := by
  induction pages with
  | nil => simp [DescribeLoadBalancersPages, matchRecords, expectedRecords, matchingPairs]
  | cons page pages ih =>
    obtain ⟨ih1, ih2, ih3⟩ := ih
    obtain ⟨h1, h2, h3⟩ := loadBalancersPage_spec health fqdn aliasTargets page
    rw [List.flatten_cons, expectedRecords_append]
    by_cases hok : (loadBalancersPage health fqdn aliasTargets page).2 = true
    · simp only [DescribeLoadBalancersPages, hok, if_true]
      rw [matchRecords_append, h2 hok]
      refine ⟨(List.prefix_append_right_inj _).mpr ih1, ?_, ?_⟩
      · intro h
        rw [ih2 h]
      · intro hall
        exact ih3 fun lb1 h1 => hall lb1 (List.mem_append_right _ h1)
    · simp only [DescribeLoadBalancersPages, hok]
      refine ⟨h1.trans (List.prefix_append _ _), ?_, ?_⟩
      · intro h
        exact absurd h hok
      · intro hall
        exact absurd (h3 fun lb1 h1 => hall lb1 (List.mem_append_left _ h1)) hok

/-- The alias loop for one load balancer is survived exactly when the health
call succeeds, or is never made because no target matches. -/
theorem aliasLoop_ok_iff (health : HealthService) (fqdn : GoString)
    (lb : LoadBalancerDescription) (dnsName : GoString) (aliasTargets : List GoString) :
    (aliasLoop health fqdn lb dnsName aliasTargets).2 = true ↔
      ((∃ a ∈ aliasTargets, HasSuffix a dnsName = true) →
        (health lb.Instances lb.LoadBalancerName).isSome = true) := by
  induction aliasTargets with
  | nil => simp [aliasLoop]
  | cons a rest ih =>
    by_cases hs : HasSuffix a dnsName = true
    · cases hh : health lb.Instances lb.LoadBalancerName with
      | none =>
        simp only [aliasLoop, hs, if_true, hh]
        constructor
        · intro h
          cases h
        · intro h
          exact absurd (h ⟨a, List.mem_cons_self _ _, hs⟩) (by simp)
      | some states =>
        simp only [aliasLoop, hs, if_true, hh]
        rw [ih]
        simp [hh]
    · have hstep : aliasLoop health fqdn lb dnsName (a :: rest) =
          aliasLoop health fqdn lb dnsName rest := by
        simp [aliasLoop, hs]
      rw [hstep, ih]
      constructor
      · intro h hex
        obtain ⟨a1, ha1, hs1⟩ := hex
        rcases List.mem_cons.mp ha1 with rfl | ha1
        · exact absurd hs1 hs
        · exact h ⟨a1, ha1, hs1⟩
      · intro h hex
        obtain ⟨a1, ha1, hs1⟩ := hex
        exact h ⟨a1, List.mem_cons_of_mem _ ha1, hs1⟩

/-- A page is survived exactly when the health call succeeds for each of its
load balancers that matches some target. -/
theorem loadBalancersPage_ok_iff (health : HealthService) (fqdn : GoString)
    (aliasTargets : List GoString) (lbs : List LoadBalancerDescription) :
    (loadBalancersPage health fqdn aliasTargets lbs).2 = true ↔
      ∀ lb ∈ lbs, (∃ a ∈ aliasTargets, HasSuffix a (StringValue lb.DNSName ++ ['.']) = true) →
        (health lb.Instances lb.LoadBalancerName).isSome = true := by
  induction lbs with
  | nil => simp [loadBalancersPage]
  | cons lb rest ih =>
    have h0 := aliasLoop_ok_iff health fqdn lb (StringValue lb.DNSName ++ ['.']) aliasTargets
    by_cases hok : (aliasLoop health fqdn lb (StringValue lb.DNSName ++ ['.']) aliasTargets).2
        = true
    · simp only [loadBalancersPage, hok, if_true]
      rw [ih]
      constructor
      · intro h lb1 hlb1
        rcases List.mem_cons.mp hlb1 with rfl | hlb1
        · exact h0.mp hok
        · exact h lb1 hlb1
      · intro h lb1 hlb1
        exact h lb1 (List.mem_cons_of_mem _ hlb1)
    · simp only [loadBalancersPage, hok]
      constructor
      · intro h
        exact absurd h hok
      · intro h
        exact absurd (h0.mpr (h lb (List.mem_cons_self _ _))) hok

/-- The listing of a region is survived exactly when the health call succeeds
for each of its load balancers that matches some target. -/
theorem DescribeLoadBalancersPages_ok_iff (health : HealthService) (fqdn : GoString)
    (aliasTargets : List GoString) (pages : List (List LoadBalancerDescription)) :
    (DescribeLoadBalancersPages health fqdn aliasTargets pages).2 = true ↔
      ∀ lb ∈ pages.flatten,
        (∃ a ∈ aliasTargets, HasSuffix a (StringValue lb.DNSName ++ ['.']) = true) →
          (health lb.Instances lb.LoadBalancerName).isSome = true := by
  induction pages with
  | nil => simp [DescribeLoadBalancersPages]
  | cons page pages ih =>
    have h0 := loadBalancersPage_ok_iff health fqdn aliasTargets page
    rw [List.flatten_cons]
    by_cases hok : (loadBalancersPage health fqdn aliasTargets page).2 = true
    · simp only [DescribeLoadBalancersPages, hok, if_true]
      rw [ih]
      constructor
      · intro h lb1 hlb1
        rcases List.mem_append.mp hlb1 with hlb1 | hlb1
        · exact h0.mp hok lb1 hlb1
        · exact h lb1 hlb1
      · intro h lb1 hlb1
        exact h lb1 (List.mem_append_right _ hlb1)
    · simp only [DescribeLoadBalancersPages, hok]
      constructor
      · intro h
        exact absurd h hok
      · intro h
        exact absurd (h0.mpr fun lb1 hlb1 => h lb1 (List.mem_append_left _ hlb1)) hok

/-! The suffix matcher: claims -/

/-- C1: `find` returns the zone whose name is the longest key of `zones` among
the suffixes of `fqdn`, a suffix being, as in the specification, dot-delimited:
one that starts at a label boundary.  Whenever some key `d` is such a suffix,
the returned domain is such a suffix too, it is a key whose zone id is the
returned zone id, and it is at least as long as `d`.  When no key is such a
suffix, and so also when no key is a suffix of `fqdn` at all, the three results
are empty. -/
theorem find_longest_label_suffix (fqdn : GoString) (zones : GoMap GoString) :
    (∀ d, LabelSuffix d fqdn → (zones.get d).isSome →
      LabelSuffix (find fqdn zones).2.2 fqdn ∧
      zones.get (find fqdn zones).2.2 = some (find fqdn zones).1 ∧
      d.length ≤ (find fqdn zones).2.2.length) ∧
    ((∀ d, LabelSuffix d fqdn → zones.get d = none) → find fqdn zones = ([], [], [])) ∧
    ((∀ d, d <:+ fqdn → zones.get d = none) → find fqdn zones = ([], [], [])) := by
  have key : (∀ d, LabelSuffix d fqdn → zones.get d = none) →
      find fqdn zones = ([], [], []) := by
    intro hnone
    rcases find_spec fqdn zones with ⟨k, z, hk, -, hsome, -⟩ | ⟨-, hres⟩
    · have := hnone _ ((labelSuffix_iff _ _).mpr ⟨k, hk, rfl⟩)
      rw [this] at hsome
      cases hsome
    · exact hres
  refine ⟨?_, key, ?_⟩
  · intro d hd hkey
    obtain ⟨i, hi, rfl⟩ := (labelSuffix_iff _ _).mp hd
    rcases find_spec fqdn zones with ⟨k, z, hk, hbefore, hsome, hres⟩ | ⟨hnone, -⟩
    · rw [hres]
      refine ⟨(labelSuffix_iff _ _).mpr ⟨k, hk, rfl⟩, hsome, ?_⟩
      have hki : k ≤ i := by
        by_contra hlt
        rw [hbefore i (by omega)] at hkey
        cases hkey
      exact (Join_drop_suffix (Split fqdn '.') ['.'] k i hki).length_le
    · rw [hnone i hi] at hkey
      cases hkey
  · intro hnone
    refine key fun d hd => hnone d ?_
    rcases hd with rfl | hd
    · exact List.suffix_refl _
    · exact (List.suffix_cons '.' d).trans hd

/-- C1, an instance: with zones `com.` and `example.com.`, the name
`foo.example.com.` belongs to `example.com.`, the longer of the two. -/
theorem find_longest_label_suffix_witness :
    LabelSuffix "example.com.".toList "foo.example.com.".toList ∧
    find "foo.example.com.".toList
      [("com.".toList, "Z1".toList), ("example.com.".toList, "Z2".toList)] =
      ("Z2".toList, "foo".toList, "example.com.".toList) ∧
    "example.com.".toList.length ≤
      (find "foo.example.com.".toList
        [("com.".toList, "Z1".toList), ("example.com.".toList, "Z2".toList)]).2.2.length :=
  ⟨by decide, by decide,
    ((find_longest_label_suffix "foo.example.com.".toList
      [("com.".toList, "Z1".toList), ("example.com.".toList, "Z2".toList)]).1
      "example.com.".toList (by decide) (by decide)).2.2⟩

/-- C2: `find` is its reference definition.  With `labels` the pieces of `fqdn`
between its dots: when `i` is the least index whose label suffix `labels[i:]`,
joined by dots, is a key of `zones`, `find` returns the value of that key, the
join of `labels[:i]` and the join of `labels[i:]`; when there is no such index
it returns three empty strings.  The three examples of the specification are
instances. -/
theorem find_eq_reference (fqdn : GoString) (zones : GoMap GoString) :
    (∀ i zoneID, i < (Split fqdn '.').length →
      zones.get (Join ((Split fqdn '.').drop i) ['.']) = some zoneID →
      (∀ j, j < i → zones.get (Join ((Split fqdn '.').drop j) ['.']) = none) →
      find fqdn zones =
        (zoneID, Join ((Split fqdn '.').take i) ['.'], Join ((Split fqdn '.').drop i) ['.'])) ∧
    ((∀ i, i < (Split fqdn '.').length →
        zones.get (Join ((Split fqdn '.').drop i) ['.']) = none) →
      find fqdn zones = ([], [], [])) ∧
    find "foo.example.com.".toList
      [("com.".toList, "Z1".toList), ("example.com.".toList, "Z2".toList)] =
      ("Z2".toList, "foo".toList, "example.com.".toList) ∧
    find "foo.example.com.".toList [("com.".toList, "Z1".toList)] =
      ("Z1".toList, "foo.example".toList, "com.".toList) ∧
    find "foo.example.com.".toList [] = ([], [], []) := by
  refine ⟨?_, ?_, by decide, by decide, by decide⟩
  · intro i zoneID hi hsome hbefore
    rcases find_spec fqdn zones with ⟨k, z, hk, hkbefore, hksome, hres⟩ | ⟨hnone, -⟩
    · have hik : i = k := by
        rcases Nat.lt_trichotomy i k with h | h | h
        · rw [hkbefore i h] at hsome
          cases hsome
        · exact h
        · rw [hbefore k h] at hksome
          cases hksome
      subst hik
      rw [hsome] at hksome
      cases hksome
      exact hres
    · rw [hnone i hi] at hsome
      cases hsome
  · intro hnone
    rcases find_spec fqdn zones with ⟨k, z, hk, -, hksome, -⟩ | ⟨-, hres⟩
    · rw [hnone k hk] at hksome
      cases hksome
    · exact hres

/-- C2, an instance: in `foo.example.com.` with zone `com.` only, the least
matching index is 2. -/
theorem find_eq_reference_witness :
    find "foo.example.com.".toList [("com.".toList, "Z1".toList)] =
      ("Z1".toList,
        Join ((Split "foo.example.com.".toList '.').take 2) ['.'],
        Join ((Split "foo.example.com.".toList '.').drop 2) ['.']) :=
  (find_eq_reference "foo.example.com.".toList [("com.".toList, "Z1".toList)]).1
    2 "Z1".toList (by decide) (by decide) (by decide)

/-- C10: `find` splits the name without loss.  When some label suffix of `fqdn`
is a key of `zones`, the returned domain is a key of `zones` whose value is the
returned zone id, and either the domain is all of `fqdn` and the prefix is
empty, or `fqdn` is the prefix, a dot and the domain. -/
theorem find_lossless (fqdn : GoString) (zones : GoMap GoString)
    (h : ∃ i, i < (Split fqdn '.').length ∧
      (zones.get (Join ((Split fqdn '.').drop i) ['.'])).isSome) :
    zones.get (find fqdn zones).2.2 = some (find fqdn zones).1 ∧
    (((find fqdn zones).2.2 = fqdn ∧ (find fqdn zones).2.1 = []) ∨
      fqdn = (find fqdn zones).2.1 ++ ['.'] ++ (find fqdn zones).2.2) := by
  obtain ⟨i, hi, hkey⟩ := h
  rcases find_spec fqdn zones with ⟨k, z, hk, -, hsome, hres⟩ | ⟨hnone, -⟩
  · rw [hres]
    refine ⟨hsome, ?_⟩
    cases k with
    | zero =>
      left
      simp [Join_Split, Join]
    | succ k =>
      right
      have := Join_take_drop (Split fqdn '.') ['.'] (k + 1) (by omega) hk
      rwa [Join_Split] at this
  · rw [hnone i hi] at hkey
    cases hkey

/-- C10, an instance: `foo.example.com.` in the zone `example.com.` is `foo`, a
dot and `example.com.`. -/
theorem find_lossless_witness :
    GoMap.get [("example.com.".toList, "Z2".toList)]
        (find "foo.example.com.".toList [("example.com.".toList, "Z2".toList)]).2.2 =
      some (find "foo.example.com.".toList [("example.com.".toList, "Z2".toList)]).1 ∧
    (((find "foo.example.com.".toList [("example.com.".toList, "Z2".toList)]).2.2 =
        "foo.example.com.".toList ∧
      (find "foo.example.com.".toList [("example.com.".toList, "Z2".toList)]).2.1 = []) ∨
      "foo.example.com.".toList =
        (find "foo.example.com.".toList [("example.com.".toList, "Z2".toList)]).2.1 ++ ['.'] ++
          (find "foo.example.com.".toList [("example.com.".toList, "Z2".toList)]).2.2) :=
  find_lossless "foo.example.com.".toList [("example.com.".toList, "Z2".toList)]
    ⟨1, by decide, by decide⟩

/-! The zone directory: claims -/

/-- C5: building the zone directory ends the process exactly when two listed
zones have the same name.  When it does not, every listed zone is found under
its name with its own id, so that none was overwritten, and the keys are the
listed names; when it does, there is no directory and `find` is not reached. -/
theorem buildZones_fatal_iff_duplicate (pages : List (List HostedZone)) :
    (buildZones pages = none ↔ ¬ (pages.flatten.map zoneName).Nodup) ∧
    (∀ zones, buildZones pages = some zones →
      (∀ z ∈ pages.flatten, zones.get (zoneName z) = some (zoneId z)) ∧
      (∀ k, (zones.get k).isSome → k ∈ pages.flatten.map zoneName)) ∧
    (∀ fqdn, buildZones pages = none → lookupZone fqdn pages = none) ∧
    (∀ fqdn zones, buildZones pages = some zones →
      lookupZone fqdn pages = some (find fqdn zones)) := by
  refine ⟨?_, ?_, ?_, ?_⟩
  · constructor
    · intro hnone hnd
      have := hostedZonesPage_isSome pages.flatten [] hnd (fun _ _ => rfl)
      rw [← ListHostedZonesPages_join] at this
      rw [show ListHostedZonesPages [] pages = buildZones pages from rfl, hnone] at this
      simp at this
    · intro hdup
      cases hb : buildZones pages with
      | none => rfl
      | some m =>
        have hb1 : hostedZonesPage [] pages.flatten = some m := by
          rw [← ListHostedZonesPages_join]
          exact hb
        exact absurd (hostedZonesPage_some _ _ _ hb1).1 hdup
  · intro m hb
    have hb1 : hostedZonesPage [] pages.flatten = some m := by
      rw [← ListHostedZonesPages_join]
      exact hb
    obtain ⟨-, -, hown, hother⟩ := hostedZonesPage_some _ _ _ hb1
    refine ⟨hown, ?_⟩
    intro k hk
    by_contra hnot
    rw [hother k hnot] at hk
    simp [GoMap.get] at hk
  · intro fqdn hb
    simp [lookupZone, hb]
  · intro fqdn m hb
    simp [lookupZone, hb]

/-- C5, an instance: a listing whose two pages both hold `example.com.` ends the
process, and `find` is not reached. -/
theorem buildZones_fatal_iff_duplicate_witness :
    buildZones [[⟨some "example.com.".toList, some "/hostedzone/Z1".toList⟩],
      [⟨some "example.com.".toList, some "/hostedzone/Z2".toList⟩]] = none ∧
    lookupZone "foo.example.com.".toList
      [[⟨some "example.com.".toList, some "/hostedzone/Z1".toList⟩],
      [⟨some "example.com.".toList, some "/hostedzone/Z2".toList⟩]] = none :=
  ⟨by decide,
    (buildZones_fatal_iff_duplicate
      [[⟨some "example.com.".toList, some "/hostedzone/Z1".toList⟩],
      [⟨some "example.com.".toList, some "/hostedzone/Z2".toList⟩]]).2.2.1
      "foo.example.com.".toList (by decide)⟩

/-! The alias classifier: claims -/

/-- C3: when every alias target that the classifier extracts a region from has at
least five labels, `main` builds an alias group, and the group maps each region
to exactly the sequence, in listing order, of the alias target DNS names of the
record sets named exactly `fqdn` that carry one ending with `elb.amazonaws.com.`
whose fifth label from the end is that region; a region without such a target
is not a key. -/
theorem aliasGroup_spec (fqdn : GoString) (pages : List (List ResourceRecordSet))
    (hdef : ∀ r ∈ pages.flatten, StringValue r.Name = fqdn →
      ∀ dns, aliasDNSName r = some dns → elbSuffix <:+ dns → 5 ≤ (Split dns '.').length) :
    ∃ aliases, aliasGroup fqdn pages = some aliases ∧
      ∀ rg, aliases.get rg =
        if matchingTargets fqdn rg pages.flatten = [] then none
        else some (matchingTargets fqdn rg pages.flatten) := by
  have hdef1 : ∀ r ∈ pages.flatten.filter (fun r => StringValue r.Name = fqdn),
      ∀ dns, aliasDNSName r = some dns → elbSuffix <:+ dns → 5 ≤ (Split dns '.').length := by
    intro r hr
    rw [List.mem_filter] at hr
    exact hdef r hr.1 (by simpa using hr.2)
  obtain ⟨m, hm, hget⟩ := classifyLoop_spec _ [] hdef1
  refine ⟨m, ?_, ?_⟩
  · rw [aliasGroup_eq, hm]
  · intro rg
    rw [hget rg]
    simp [matchingTargets, GoMap.get]

/-- C3, an instance: of three record sets, the two named `foo.example.com.` with
load-balancer targets in `us-west-2` are filed under that region, in order. -/
theorem aliasGroup_spec_witness :
    ∃ aliases,
      aliasGroup "foo.example.com.".toList
        [[⟨some "foo.example.com.".toList, some ⟨some "a-1.us-west-2.elb.amazonaws.com.".toList⟩⟩,
          ⟨some "bar.example.com.".toList, some ⟨some "b-2.us-west-2.elb.amazonaws.com.".toList⟩⟩],
         [⟨some "foo.example.com.".toList,
            some ⟨some "dualstack.c-3.us-west-2.elb.amazonaws.com.".toList⟩⟩]] = some aliases ∧
      ∀ rg, aliases.get rg =
        if matchingTargets "foo.example.com.".toList rg
          [⟨some "foo.example.com.".toList, some ⟨some "a-1.us-west-2.elb.amazonaws.com.".toList⟩⟩,
            ⟨some "bar.example.com.".toList, some ⟨some "b-2.us-west-2.elb.amazonaws.com.".toList⟩⟩,
            ⟨some "foo.example.com.".toList,
              some ⟨some "dualstack.c-3.us-west-2.elb.amazonaws.com.".toList⟩⟩] = [] then none
        else some (matchingTargets "foo.example.com.".toList rg
          [⟨some "foo.example.com.".toList, some ⟨some "a-1.us-west-2.elb.amazonaws.com.".toList⟩⟩,
            ⟨some "bar.example.com.".toList, some ⟨some "b-2.us-west-2.elb.amazonaws.com.".toList⟩⟩,
            ⟨some "foo.example.com.".toList,
              some ⟨some "dualstack.c-3.us-west-2.elb.amazonaws.com.".toList⟩⟩]) :=
  aliasGroup_spec "foo.example.com.".toList
    [[⟨some "foo.example.com.".toList, some ⟨some "a-1.us-west-2.elb.amazonaws.com.".toList⟩⟩,
      ⟨some "bar.example.com.".toList, some ⟨some "b-2.us-west-2.elb.amazonaws.com.".toList⟩⟩],
     [⟨some "foo.example.com.".toList,
        some ⟨some "dualstack.c-3.us-west-2.elb.amazonaws.com.".toList⟩⟩]]
    (by
      intro r hr _ dns hdns _
      simp only [List.flatten, List.append_nil, List.cons_append, List.nil_append,
        List.mem_cons, List.mem_singleton, List.not_mem_nil, or_false] at hr
      rcases hr with rfl | rfl | rfl <;>
      · simp only [aliasDNSName, Option.some.injEq] at hdns
        subst hdns
        decide)

/-- C6: record sets that do not match leave the alias classification alone.  A
listing with record sets inserted, any number at any positions, whose name
differs from `fqdn` or whose alias target is absent or does not end with
`elb.amazonaws.com.`, gives the same outcome as the listing without them: the
same alias group, with the same keys and the same sequence of targets per key. -/
theorem aliasGroup_insert_nonmatching (fqdn : GoString)
    (pages pages1 : List (List ResourceRecordSet))
    (h : InsertedNonMatching fqdn pages.flatten pages1.flatten) :
    aliasGroup fqdn pages1 = aliasGroup fqdn pages := by
  rw [aliasGroup_eq, aliasGroup_eq]
  exact classifyLoop_inserted fqdn _ _ h []

/-- C6, an instance: a record set of another name in front and a record set
without alias target behind do not change the alias group. -/
theorem aliasGroup_insert_nonmatching_witness :
    aliasGroup "foo.example.com.".toList
      [[⟨some "bar.example.com.".toList, some ⟨some "b-2.us-west-2.elb.amazonaws.com.".toList⟩⟩,
        ⟨some "foo.example.com.".toList, some ⟨some "a-1.us-west-2.elb.amazonaws.com.".toList⟩⟩,
        ⟨some "foo.example.com.".toList, none⟩]] =
    aliasGroup "foo.example.com.".toList
      [[⟨some "foo.example.com.".toList,
        some ⟨some "a-1.us-west-2.elb.amazonaws.com.".toList⟩⟩]] :=
  aliasGroup_insert_nonmatching "foo.example.com.".toList
    [[⟨some "foo.example.com.".toList, some ⟨some "a-1.us-west-2.elb.amazonaws.com.".toList⟩⟩]]
    [[⟨some "bar.example.com.".toList, some ⟨some "b-2.us-west-2.elb.amazonaws.com.".toList⟩⟩,
      ⟨some "foo.example.com.".toList, some ⟨some "a-1.us-west-2.elb.amazonaws.com.".toList⟩⟩,
      ⟨some "foo.example.com.".toList, none⟩]]
    (InsertedNonMatching.insert _ (Or.inl (by decide))
      (InsertedNonMatching.keep _
        (InsertedNonMatching.insert _ (Or.inr (fun dns hdns => by simp [aliasDNSName] at hdns))
          InsertedNonMatching.nil)))

/-- C7: the region does not depend on the prefix.  For a load-balancer label `n`
and a region token `r` without dots, the region of `n.r.elb.amazonaws.com.`, of
`dualstack.n.r.elb.amazonaws.com.` and of `ipv6.n.r.elb.amazonaws.com.` is `r`;
the two examples of the specification give `us-west-2`. -/
theorem region_prefix_invariant (n r : GoString) (hn : '.' ∉ n) (hr : '.' ∉ r) :
    region (n ++ ['.'] ++ r ++ ['.'] ++ elbSuffix) = some r ∧
    region ("dualstack.".toList ++ (n ++ ['.'] ++ r ++ ['.'] ++ elbSuffix)) = some r ∧
    region ("ipv6.".toList ++ (n ++ ['.'] ++ r ++ ['.'] ++ elbSuffix)) = some r ∧
    region "myapp-123456789.us-west-2.elb.amazonaws.com.".toList = some "us-west-2".toList ∧
    region "dualstack.myapp-123456789.us-west-2.elb.amazonaws.com.".toList =
      some "us-west-2".toList := by
  have hsuf : Split elbSuffix '.' = ["elb".toList, "amazonaws".toList, "com".toList, []] := by
    decide
  have hbase : Split (n ++ ['.'] ++ r ++ ['.'] ++ elbSuffix) '.' =
      n :: r :: ["elb".toList, "amazonaws".toList, "com".toList, []] := by
    have e : n ++ ['.'] ++ r ++ ['.'] ++ elbSuffix = n ++ '.' :: (r ++ '.' :: elbSuffix) := by
      simp
    rw [e, Split_label n _ '.' hn, Split_label r _ '.' hr, hsuf]
  have hdual : Split ("dualstack.".toList ++ (n ++ ['.'] ++ r ++ ['.'] ++ elbSuffix)) '.' =
      "dualstack".toList :: n :: r :: ["elb".toList, "amazonaws".toList, "com".toList, []] := by
    have e : "dualstack.".toList ++ (n ++ ['.'] ++ r ++ ['.'] ++ elbSuffix) =
        "dualstack".toList ++ '.' :: (n ++ ['.'] ++ r ++ ['.'] ++ elbSuffix) := by
      simp
    rw [e, Split_label _ _ '.' (by decide), hbase]
  have hipv6 : Split ("ipv6.".toList ++ (n ++ ['.'] ++ r ++ ['.'] ++ elbSuffix)) '.' =
      "ipv6".toList :: n :: r :: ["elb".toList, "amazonaws".toList, "com".toList, []] := by
    have e : "ipv6.".toList ++ (n ++ ['.'] ++ r ++ ['.'] ++ elbSuffix) =
        "ipv6".toList ++ '.' :: (n ++ ['.'] ++ r ++ ['.'] ++ elbSuffix) := by
      simp
    rw [e, Split_label _ _ '.' (by decide), hbase]
  refine ⟨?_, ?_, ?_, by decide, by decide⟩
  · rw [region_eq, hbase]
    rfl
  · rw [region_eq, hdual]
    rfl
  · rw [region_eq, hipv6]
    rfl

/-- C7, an instance: the label `myapp-123456789` and the region `us-west-2`. -/
theorem region_prefix_invariant_witness :
    region ("myapp-123456789".toList ++ ['.'] ++ "us-west-2".toList ++ ['.'] ++ elbSuffix) =
      some "us-west-2".toList ∧
    region ("dualstack.".toList ++
      ("myapp-123456789".toList ++ ['.'] ++ "us-west-2".toList ++ ['.'] ++ elbSuffix)) =
      some "us-west-2".toList ∧
    region ("ipv6.".toList ++
      ("myapp-123456789".toList ++ ['.'] ++ "us-west-2".toList ++ ['.'] ++ elbSuffix)) =
      some "us-west-2".toList :=
  have h := region_prefix_invariant "myapp-123456789".toList "us-west-2".toList
    (by decide) (by decide)
  ⟨h.1, h.2.1, h.2.2.1⟩

/-- C8 fails on the code: the alias target `elb.amazonaws.com.` passes the suffix
test of the classifier and splits into four labels only, so that the index
`len(l)-5` is -1; the region extraction panics, and with it `main`. -/
theorem region_panics_below_five_labels :
    HasSuffix "elb.amazonaws.com.".toList elbSuffix = true ∧
    (Split "elb.amazonaws.com.".toList '.').length = 4 ∧
    region "elb.amazonaws.com.".toList = none ∧
    aliasGroup "foo.example.com.".toList
      [[⟨some "foo.example.com.".toList, some ⟨some "elb.amazonaws.com.".toList⟩⟩]] = none := by
  decide

/-! The load-balancer correlator: claims -/

/-- C4, as amended: the match records that the correlator emits for a region are
those of the pairs of a load balancer of the listing and an alias target of the
region such that the DNS name of the load balancer, with a dot appended, is a
suffix of the alias target, as long as the run is not ended by a failing health
lookup.  The run survives the listing exactly when the health lookup succeeds
for every listed load balancer that matches some target; when it does, the
emitted records are exactly the records of these pairs, one per pair and none
left out, also when several load balancers match one target.  In every case the
emitted records are a prefix of the records of these pairs, so none is emitted
for a pair that does not match.  The load balancer
`myapp-123456789.us-west-2.elb.amazonaws.com` matches the alias target
`dualstack.myapp-123456789.us-west-2.elb.amazonaws.com.`. -/
theorem correlator_emits_matching_pairs (health : HealthService) (fqdn : GoString)
    (aliasTargets : List GoString) (pages : List (List LoadBalancerDescription)) :
    matchRecords (DescribeLoadBalancersPages health fqdn aliasTargets pages).1 <+:
        expectedRecords fqdn aliasTargets pages.flatten ∧
    ((DescribeLoadBalancersPages health fqdn aliasTargets pages).2 = true ↔
      ∀ lb ∈ pages.flatten,
        (∃ a ∈ aliasTargets, (StringValue lb.DNSName ++ ['.']) <:+ a) →
          (health lb.Instances lb.LoadBalancerName).isSome = true) ∧
    ((DescribeLoadBalancersPages health fqdn aliasTargets pages).2 = true →
      matchRecords (DescribeLoadBalancersPages health fqdn aliasTargets pages).1 =
        expectedRecords fqdn aliasTargets pages.flatten) ∧
    ((∀ lb ∈ pages.flatten, (health lb.Instances lb.LoadBalancerName).isSome) →
      matchRecords (DescribeLoadBalancersPages health fqdn aliasTargets pages).1 =
          expectedRecords fqdn aliasTargets pages.flatten ∧
        (DescribeLoadBalancersPages health fqdn aliasTargets pages).2 = true) ∧
    matchRecords (DescribeLoadBalancersPages (fun _ _ => some []) "foo.example.com.".toList
      ["dualstack.myapp-123456789.us-west-2.elb.amazonaws.com.".toList]
      [[⟨some "myapp".toList, some "myapp-123456789.us-west-2.elb.amazonaws.com".toList,
        none, none, []⟩]]).1 =
      [Line.matchRecord "foo.example.com.".toList
        "dualstack.myapp-123456789.us-west-2.elb.amazonaws.com.".toList "myapp".toList
        "myapp-123456789.us-west-2.elb.amazonaws.com".toList [] []] := by
  obtain ⟨h1, h2, h3⟩ := DescribeLoadBalancersPages_spec health fqdn aliasTargets pages
  have h4 := DescribeLoadBalancersPages_ok_iff health fqdn aliasTargets pages
  simp only [HasSuffix_iff] at h4
  exact ⟨h1, h4, h2, fun hok => ⟨h2 (h3 hok), h3 hok⟩, by decide⟩

/-- C4, an instance: two load balancers with the same DNS name both match the one
alias target; the health lookups succeed for both, the run survives and both
records are emitted. -/
theorem correlator_emits_matching_pairs_witness :
    (DescribeLoadBalancersPages (fun _ _ => some []) "foo.example.com.".toList
      ["dualstack.a-1.us-west-2.elb.amazonaws.com.".toList]
      [[⟨some "old".toList, some "a-1.us-west-2.elb.amazonaws.com".toList, none, none, []⟩],
       [⟨some "new".toList, some "a-1.us-west-2.elb.amazonaws.com".toList, none, none, []⟩]]).2
      = true ∧
    matchRecords (DescribeLoadBalancersPages (fun _ _ => some []) "foo.example.com.".toList
      ["dualstack.a-1.us-west-2.elb.amazonaws.com.".toList]
      [[⟨some "old".toList, some "a-1.us-west-2.elb.amazonaws.com".toList, none, none, []⟩],
       [⟨some "new".toList, some "a-1.us-west-2.elb.amazonaws.com".toList, none, none, []⟩]]).1 =
      expectedRecords "foo.example.com.".toList
        ["dualstack.a-1.us-west-2.elb.amazonaws.com.".toList]
        [⟨some "old".toList, some "a-1.us-west-2.elb.amazonaws.com".toList, none, none, []⟩,
         ⟨some "new".toList, some "a-1.us-west-2.elb.amazonaws.com".toList, none, none, []⟩] ∧
    (expectedRecords "foo.example.com.".toList
        ["dualstack.a-1.us-west-2.elb.amazonaws.com.".toList]
        [⟨some "old".toList, some "a-1.us-west-2.elb.amazonaws.com".toList, none, none, []⟩,
         ⟨some "new".toList, some "a-1.us-west-2.elb.amazonaws.com".toList, none, none, []⟩]).length
      = 2 :=
  ⟨by decide,
    (correlator_emits_matching_pairs (fun _ _ => some []) "foo.example.com.".toList
      ["dualstack.a-1.us-west-2.elb.amazonaws.com.".toList]
      [[⟨some "old".toList, some "a-1.us-west-2.elb.amazonaws.com".toList, none, none, []⟩],
       [⟨some "new".toList, some "a-1.us-west-2.elb.amazonaws.com".toList, none, none, []⟩]]).2.2.1
      (by decide), by decide⟩

/-- C4, as stated, fails: two load balancers match the one alias target, the
health lookup fails, and the run ends after the record of the first pair; one
record is emitted where the claim has two. -/
theorem correlator_emits_counterexample :
    (DescribeLoadBalancersPages (fun _ _ => none) "foo.example.com.".toList
      ["dualstack.a-1.us-west-2.elb.amazonaws.com.".toList]
      [[⟨some "old".toList, some "a-1.us-west-2.elb.amazonaws.com".toList, none, none, []⟩],
       [⟨some "new".toList, some "a-1.us-west-2.elb.amazonaws.com".toList, none, none, []⟩]]) =
      ([Line.matchRecord "foo.example.com.".toList
        "dualstack.a-1.us-west-2.elb.amazonaws.com.".toList "old".toList
        "a-1.us-west-2.elb.amazonaws.com".toList [] []], false) ∧
    expectedRecords "foo.example.com.".toList
        ["dualstack.a-1.us-west-2.elb.amazonaws.com.".toList]
        [⟨some "old".toList, some "a-1.us-west-2.elb.amazonaws.com".toList, none, none, []⟩,
         ⟨some "new".toList, some "a-1.us-west-2.elb.amazonaws.com".toList, none, none, []⟩] =
      [Line.matchRecord "foo.example.com.".toList
        "dualstack.a-1.us-west-2.elb.amazonaws.com.".toList "old".toList
        "a-1.us-west-2.elb.amazonaws.com".toList [] [],
       Line.matchRecord "foo.example.com.".toList
        "dualstack.a-1.us-west-2.elb.amazonaws.com.".toList "new".toList
        "a-1.us-west-2.elb.amazonaws.com".toList [] []] ∧
    matchRecords (DescribeLoadBalancersPages (fun _ _ => none) "foo.example.com.".toList
      ["dualstack.a-1.us-west-2.elb.amazonaws.com.".toList]
      [[⟨some "old".toList, some "a-1.us-west-2.elb.amazonaws.com".toList, none, none, []⟩],
       [⟨some "new".toList, some "a-1.us-west-2.elb.amazonaws.com".toList, none, none, []⟩]]).1 ≠
      expectedRecords "foo.example.com.".toList
        ["dualstack.a-1.us-west-2.elb.amazonaws.com.".toList]
        [⟨some "old".toList, some "a-1.us-west-2.elb.amazonaws.com".toList, none, none, []⟩,
         ⟨some "new".toList, some "a-1.us-west-2.elb.amazonaws.com".toList, none, none, []⟩] := by
  decide

/-- C9, as amended: whenever the correlator reports a match between a load
balancer with DNS name `d` and an alias target `a`, the target is one of the
region, the load balancer is one of the listing, and `a` ends with `d` followed
by a dot: `a` is some string, empty or not and not necessarily a sequence of
whole labels, followed by `d` and a dot. -/
theorem correlator_match_is_suffix (health : HealthService) (fqdn : GoString)
    (aliasTargets : List GoString) (pages : List (List LoadBalancerDescription))
    (f a n d zn zi : GoString)
    (h : Line.matchRecord f a n d zn zi ∈
      (DescribeLoadBalancersPages health fqdn aliasTargets pages).1) :
    a ∈ aliasTargets ∧ (∃ lb ∈ pages.flatten, StringValue lb.DNSName = d) ∧
    ∃ p, a = p ++ d ++ ['.'] := by
  have hmem : Line.matchRecord f a n d zn zi ∈
      matchRecords (DescribeLoadBalancersPages health fqdn aliasTargets pages).1 := by
    simp only [matchRecords, List.mem_filter]
    exact ⟨h, trivial⟩
  have hexp := (DescribeLoadBalancersPages_spec health fqdn aliasTargets pages).1.subset hmem
  simp only [expectedRecords, List.mem_map] at hexp
  obtain ⟨⟨lb, a1⟩, hpair, hline⟩ := hexp
  simp only [matchLine, Line.matchRecord.injEq] at hline
  obtain ⟨-, rfl, -, rfl, -, -⟩ := hline
  simp only [matchingPairs, List.mem_filter, List.pair_mem_product, decide_eq_true_eq] at hpair
  obtain ⟨⟨hlb, ha⟩, p, hp⟩ := hpair
  exact ⟨ha, ⟨lb, hlb, rfl⟩, p, by rw [← hp, List.append_assoc]⟩

/-- C9, an instance: the match of `a-1.us-west-2.elb.amazonaws.com` with the
target `dualstack.a-1.us-west-2.elb.amazonaws.com.`. -/
theorem correlator_match_is_suffix_witness :
    ∃ p, "dualstack.a-1.us-west-2.elb.amazonaws.com.".toList =
      p ++ "a-1.us-west-2.elb.amazonaws.com".toList ++ ['.'] :=
  (correlator_match_is_suffix (fun _ _ => some []) "foo.example.com.".toList
    ["dualstack.a-1.us-west-2.elb.amazonaws.com.".toList]
    [[⟨some "lb".toList, some "a-1.us-west-2.elb.amazonaws.com".toList, none, none, []⟩]]
    "foo.example.com.".toList "dualstack.a-1.us-west-2.elb.amazonaws.com.".toList "lb".toList
    "a-1.us-west-2.elb.amazonaws.com".toList [] [] (by decide)).2.2

/-- C9, as stated, fails: the load balancer `app-123456789.us-west-2.elb.amazonaws.com`
is reported for the alias target `myapp-123456789.us-west-2.elb.amazonaws.com.`,
which is neither its DNS name followed by a dot nor ends with a dot, its DNS
name and a dot. -/
theorem correlator_match_counterexample :
    Line.matchRecord "foo.example.com.".toList
        "myapp-123456789.us-west-2.elb.amazonaws.com.".toList "app".toList
        "app-123456789.us-west-2.elb.amazonaws.com".toList [] [] ∈
      (DescribeLoadBalancersPages (fun _ _ => some []) "foo.example.com.".toList
        ["myapp-123456789.us-west-2.elb.amazonaws.com.".toList]
        [[⟨some "app".toList, some "app-123456789.us-west-2.elb.amazonaws.com".toList,
          none, none, []⟩]]).1 ∧
    "myapp-123456789.us-west-2.elb.amazonaws.com.".toList ≠
      "app-123456789.us-west-2.elb.amazonaws.com".toList ++ ['.'] ∧
    ¬ (['.'] ++ "app-123456789.us-west-2.elb.amazonaws.com".toList ++ ['.']) <:+
      "myapp-123456789.us-west-2.elb.amazonaws.com.".toList := by
  decide

end R53elb
